import Mathlib

/-!
Verification development for the enos flight-plan decoder, sample framer and
diagnostics engine.

The Go sources are shallowly embedded:

* `internal/diagnostics/diagnostics.go` — `FromErr`, `FromTFJSON`, and the
  snippet/annotation parts of `FromHCL`;
* the `flightplan` scenario decoder (`ScenarioDecoder`, `DecodeScenarioBlocks`,
  `decodeScenario`, `decodeScenariosSerial`, `decodeScenariosConcurrent`);
* `internal/flightplan/sample.go` — `Sample.Frame` and `filterSubsets`.

Pointers that may be nil in Go become `Option`; a nil-pointer dereference
(a Go panic) is modelled by an `Option`-valued result being `none`.
Functions from external libraries (hcl ranges, cty values, the protobuf
types) are modelled at the byte/string level of detail the embedded code
actually uses, and each such model is marked in its doc comment.
-/

namespace Enos

/-! Byte-level lexicographic string order

Go's `cmp.Compare` on `string` compares byte-wise; for valid UTF-8 that
coincides with code-point lexicographic order, which we define here as an
executable `Bool`-valued relation. -/

/-- Lexicographic less-or-equal on lists of characters, comparing code points. -/
def lexLe : List Char → List Char → Bool
  | [], _ => true
  | _ :: _, [] => false
  | x :: xs, y :: ys =>
    if x.toNat < y.toNat then true
    else if y.toNat < x.toNat then false
    else lexLe xs ys

/-- Go string `<=` (byte-wise, as used by `cmp.Compare`). -/
def strLeB (a b : String) : Bool := lexLe a.data b.data


/-! Protobuf diagnostics (`pb.Diagnostic`)

Embedding of the generated protobuf types that `internal/diagnostics`
produces.  Pointer-valued message fields become `Option`. -/

/-- Embeds `pb.Diagnostic_Severity`. -/
inductive Severity where
  | unknown
  | error
  | warning
deriving DecidableEq, Repr

/-- Embeds `pb.Range_Pos`. -/
structure PbPos where
  line : Int
  column : Int
  byte : Int
deriving DecidableEq, Repr

/-- Embeds `pb.Range`. -/
structure PbRange where
  filename : String
  startPos : PbPos
  endPos : PbPos
deriving DecidableEq, Repr

/-- Embeds `pb.Diagnostic_ExpressionValue`. -/
structure PbExpressionValue where
  traversal : String
  statement : String
deriving DecidableEq, Repr

/-- Embeds `pb.Diagnostic_Snippet`. -/
structure PbSnippet where
  context : String
  code : String
  startLine : Int
  highlightStartOffset : Int
  highlightEndOffset : Int
  values : List PbExpressionValue
deriving DecidableEq, Repr

/-- Embeds `pb.Diagnostic`.  Unset message fields (`Range`, `Snippet`) are `none`. -/
structure PbDiag where
  severity : Severity := .unknown
  summary : String := ""
  detail : String := ""
  range : Option PbRange := none
  snippet : Option PbSnippet := none
deriving DecidableEq, Repr

/-! Embedding of `diagnostics.FromErr`. -/

/-- Embeds `diagnostics.FromErr`.  A Go `error` is modelled by `Option String`
(`none` is the nil error, `some msg` an error whose `Error()` is `msg`). -/
def FromErr : Option String → List PbDiag
  | none => []
  | some msg => [{ severity := .error, summary := msg }]

/-! Embedding of `diagnostics.FromTFJSON`. -/

/-- Embeds `tfjson.Pos`. -/
structure TfPos where
  line : Int
  column : Int
  byte : Int
deriving DecidableEq, Repr

/-- Embeds `tfjson.Range` (the fields `FromTFJSON` reads). -/
structure TfRange where
  filename : String
  startPos : TfPos
  endPos : TfPos
deriving DecidableEq, Repr

/-- Embeds `tfjson.DiagnosticExpressionValue`. -/
structure TfExpressionValue where
  traversal : String
  statement : String
deriving DecidableEq, Repr

/-- Embeds `tfjson.DiagnosticSnippet`.  `Context` is a `*string` in Go, hence
`Option String` here. -/
structure TfSnippet where
  context : Option String
  code : String
  startLine : Int
  highlightStartOffset : Int
  highlightEndOffset : Int
  values : List TfExpressionValue
deriving DecidableEq, Repr

/-- Embeds `tfjson.Diagnostic` (the fields `FromTFJSON` reads).  `Range` and
`Snippet` are pointers in Go, hence `Option` here.  `Severity` is the
tfjson severity string (`"error"`, `"warning"`, ...). -/
structure TfDiag where
  severity : String
  summary : String
  detail : String
  range : Option TfRange
  snippet : Option TfSnippet
deriving DecidableEq, Repr

/-- The severity switch inside `FromTFJSON`. -/
def tfSeverityToPb (s : String) : Severity :=
  if s = "error" then .error
  else if s = "warning" then .warning
  else .unknown

/-- One iteration of the `FromTFJSON` loop.  The Go body dereferences
`din.Range`, `din.Snippet` and `*din.Snippet.Context` unconditionally;
a nil pointer there panics, which the model reports as `none`. -/
def fromTFJSONDiag (din : TfDiag) : Option PbDiag :=
  match din.range, din.snippet with
  | some r, some s =>
    match s.context with
    | some ctxStr =>
      some
        { severity := tfSeverityToPb din.severity
          summary := din.summary
          detail := din.detail
          range := some
            { filename := r.filename
              startPos := { line := r.startPos.line, column := r.startPos.column, byte := r.startPos.byte }
              endPos := { line := r.endPos.line, column := r.endPos.column, byte := r.endPos.byte } }
          snippet := some
            { context := ctxStr
              code := s.code
              startLine := s.startLine
              highlightStartOffset := s.highlightStartOffset
              highlightEndOffset := s.highlightEndOffset
              values := s.values.map fun e => { traversal := e.traversal, statement := e.statement } } }
    | none => none
  | _, _ => none

/-- Embeds `diagnostics.FromTFJSON`.  The result is `none` when any loop iteration
panics on a nil `Range`, `Snippet` or `Snippet.Context`. -/
def FromTFJSON (l : List TfDiag) : Option (List PbDiag) :=
  if l.length < 1 then some []
  else l.mapM fromTFJSONDiag

/-! Embedding of the `diagnostics.FromHCL` expression-value annotation walk.

An hcl traversal is modelled as its list of step names (root name followed
by attribute names); `traversal.TraverseAbs(ctx)` becomes an abstract
evaluation function `ev : List String → Option String` (`none` when hcl
reports error diagnostics, `some v` when evaluation succeeds).
`traversalStr` joins the steps with dots, as the Go helper renders
root/attr steps. -/

/-- Embeds `diagnostics.traversalStr` restricted to root/attribute steps. -/
def traversalJoin (t : List String) : String := String.intercalate "." t

/-- The inner `for len(traversal) > 1` loop of the annotation walk in
`FromHCL`: evaluate the traversal; on error drop the last step and retry;
on success either skip (when the rendered traversal was already seen) or
record one annotation — the following iteration then exits through the
`seen` check, so at most one annotation is recorded per traversal.
Returns the annotation recorded for this traversal, if any. -/
def walkTraversal (ev : List String → Option String) (seen : List String) (t : List String) :
    Option (List String × String) :=
  if t.length ≤ 1 then none
  else
    match ev t with
    | none => walkTraversal ev seen t.dropLast
    | some v => if traversalJoin t ∈ seen then none else some (t, v)
termination_by t.length
decreasing_by
  simp only [List.length_dropLast]
  omega

/-! Embedding of the `diagnostics.FromHCL` snippet synthesis and highlight offsets.

hcl ranges are modelled at byte granularity: a range is a pair
`(startByte, stopByte)`.  The hcl helpers used by `FromHCL`
(`Range.Empty`, `Range.Overlaps`, `RangeOver`, `RangeScanner` with
line-splitting) are modelled from the hcl library semantics, which compare
ranges by their byte offsets. -/

/-- A source range reduced to its byte offsets: `hcl.Range.Start.Byte` and
`hcl.Range.End.Byte`. -/
structure ByteRange where
  startB : Int
  stopB : Int
deriving DecidableEq, Repr

/-- Models `hcl.Range.Empty`: a range is empty when its start and end bytes agree. -/
def ByteRange.isEmpty (r : ByteRange) : Bool := r.startB = r.stopB

/-- Models `hcl.Range.Overlaps` at byte granularity: empty ranges overlap nothing;
otherwise the ranges must genuinely intersect. -/
def ByteRange.overlaps (r o : ByteRange) : Bool :=
  if r.isEmpty || o.isEmpty then false
  else if r.startB ≥ o.stopB then false
  else if r.stopB ≤ o.startB then false
  else true

/-- Models `hcl.RangeOver`: the smallest range containing both arguments (an empty
argument is absorbed). -/
def rangeOver (a b : ByteRange) : ByteRange :=
  if a.isEmpty then b
  else if b.isEmpty then a
  else
    { startB := if a.startB < b.startB then a.startB else b.startB
      stopB := if a.stopB > b.stopB then a.stopB else b.stopB }

/-- Lines 166-188 of `diagnostics.go`: take the diagnostic's subject range,
default a zero `End` position to `Start`, widen the snippet range over the
context range, and bump empty ranges so neither is empty.  `endIsZeroPos`
models `highlightRange.End == (hcl.Pos{})`.  Returns
(highlight range, snippet range). -/
def normalizeRanges (subject : ByteRange) (endIsZeroPos : Bool) (ctx : Option ByteRange) :
    ByteRange × ByteRange :=
  let highlight :=
    if endIsZeroPos then { startB := subject.startB, stopB := subject.startB } else subject
  let snippet := match ctx with
    | some c => c
    | none => highlight
  let snippet := rangeOver snippet highlight
  let snippet := if snippet.isEmpty then { snippet with stopB := snippet.stopB + 1 } else snippet
  let highlight :=
    if highlight.isEmpty then { highlight with stopB := highlight.stopB + 1 } else highlight
  (highlight, snippet)

/-- Auxiliary recursion for `lineRanges`, carrying the next line's start
byte. -/
def lineRangesFrom (startB : Int) : List String → List (ByteRange × String)
  | [] => []
  | l :: rest =>
    ({ startB := startB, stopB := startB + l.length }, l) ::
      lineRangesFrom (startB + l.length + 1) rest

/-- A source file split into lines, as `hcl.NewRangeScanner` with
`bufio.ScanLines` produces them: each line covers its content bytes and
the separating newline is one byte. -/
def lineRanges (lines : List String) : List (ByteRange × String) :=
  lineRangesFrom 0 lines

/-- Lines 209-223 of `diagnostics.go`: scan the file's lines, keep those
overlapping the snippet range, record the first kept line's start byte
(the `codeStartByte == 0 && code.Len() == 0` guard included), join the
kept lines with newlines and trim the trailing newline.  Returns
(codeStartByte, code text). -/
def buildSnippetCode (fileLines : List String) (snippet : ByteRange) : Int × String :=
  let scan := (lineRanges fileLines).foldl
    (fun (acc : Int × List String) lr =>
      if lr.1.overlaps snippet then
        (if acc.1 = 0 ∧ acc.2 = [] then lr.1.startB else acc.1, acc.2 ++ [lr.2])
      else acc)
    (0, [])
  (scan.1, String.intercalate "\n" scan.2)

/-- The clamping applied to each offset on lines 235-244 of
`diagnostics.go`. -/
def clampInt (x codeLen : Int) : Int :=
  if x < 0 then 0 else if x > codeLen then codeLen else x

/-- Lines 227-244 of `diagnostics.go`: highlight offsets relative to the
code text, clamped into `[0, len(code)]`. -/
def clampOffsets (hl : ByteRange) (codeStartByte codeLen : Int) : Int × Int :=
  let s := hl.startB - codeStartByte
  let e := s + (hl.stopB - hl.startB)
  (clampInt s codeLen, clampInt e codeLen)

/-- The snippet-offset portion of `FromHCL` for one diagnostic with a
subject range in a known file: normalize the ranges, build the code text,
and compute the clamped highlight offsets.  Returns
(HighlightStartOffset, HighlightEndOffset, code text). -/
def fromHCLSnippetOffsets (fileLines : List String) (subject : ByteRange)
    (endIsZeroPos : Bool) (ctx : Option ByteRange) : Int × Int × String :=
  let hl := (normalizeRanges subject endIsZeroPos ctx).1
  let sn := (normalizeRanges subject endIsZeroPos ctx).2
  let csb := (buildSnippetCode fileLines sn).1
  let code := (buildSnippetCode fileLines sn).2
  ((clampOffsets hl csb code.length).1, (clampOffsets hl csb code.length).2, code)

/-! Flightplan scenario decoder.

`hcl.Diagnostics` values produced while decoding scenarios. -/

/-- Embeds `hcl.DiagnosticSeverity`. -/
inductive HclSeverity where
  | invalid
  | error
  | warning
deriving DecidableEq, Repr

/-- An `hcl.Diagnostic` reduced to the fields the scenario decoder
produces and inspects. -/
structure HclDiag where
  severity : HclSeverity
  summary : String
  detail : String
deriving DecidableEq, Repr

/-- Embeds `hcl.Diagnostics.HasErrors`. -/
def hclHasErrors (ds : List HclDiag) : Bool := ds.any fun d => d.severity = .error

/-- A matrix `Element` is a (key, value) pair; a `Vector` its ordered list.
Element values are rendered strings of the underlying cty values. -/
abbrev Vector := List (String × String)

/-- A decoded `Scenario`, reduced to the fields the orchestrator reads:
the block name, the variant vector (`Scenario.Variants`), and an opaque
payload standing for everything `scenario.decode` fills in from the
evaluation context. -/
structure Scenario where
  name : String
  variants : Option Vector
  payload : String
deriving DecidableEq, Repr

/-- Renders `Scenario.String()`, modelled from the spec (the method itself is not
part of the sources): the name followed by the variant pairs sorted by
key, rendered `"name [k1:v1 k2:v2]"`; a scenario without variants renders
as its bare name. -/
def scenarioString (s : Scenario) : String :=
  match s.variants with
  | none => s.name
  | some ve =>
    let sorted := List.insertionSort (fun a b : String × String => strLeB a.1 b.1 = true) ve
    s.name ++ " [" ++ String.intercalate " " (sorted.map fun kv => kv.1 ++ ":" ++ kv.2) ++ "]"

/-- The comparison `cmp.Compare(a.String(), b.String())` used by
`DecodeScenarioBlocks` when sorting a block's scenarios. -/
def scenLE (a b : Scenario) : Prop := strLeB (scenarioString a) (scenarioString b) = true

instance : DecidableRel scenLE := fun _ _ => instDecidableEqBool _ _

/-- Embeds `slices.SortStableFunc(scenarios, cmp.Compare on String())`.  A stable
sort's output is determined by the comparator and the input order, so the
stable `insertionSort` is the faithful model. -/
def sortScenarios (l : List Scenario) : List Scenario := List.insertionSort scenLE l

/-- Decode-target ladder (`DecodeTargetUnset` through `DecodeTargetAll`),
in declaration order. -/
def DecodeTargetUnset : Nat := 0

def DecodeTargetScenariosNamesNoVariants : Nat := 1

def DecodeTargetScenariosMatrixOnly : Nat := 2

def DecodeTargetScenariosNamesExpandVariants : Nat := 3

def DecodeTargetScenariosComplete : Nat := 4

def DecodeTargetAll : Nat := 5

/-- The decoder's evaluation context, reduced to its effective `matrix`
binding.  The scenario-decode path only ever writes the `matrix` variable
into child contexts, and hcl's child contexts shadow their parents, so a
context is observationally its innermost `matrix` binding (`none` when no
enclosing context binds `matrix`); every other lookup is constant and is
absorbed into the abstract scenario-body decoder. -/
abbrev MatrixEnv := Option Vector

/-- The scenario-body decode (`scenario.decode(block, ctx, target)`),
abstracted: from the effective evaluation context it produces the
scenario's decoded payload and diagnostics.  The block and target are
fixed throughout one `DecodeScenarioBlocks` call and are absorbed. -/
abbrev BodyDecoder := MatrixEnv → String × List HclDiag

/-- Embeds `ScenarioDecoder.decodeScenario`: for a nil vector, decode against the
decoder's current context; for a non-nil vector, build a child context
binding `matrix` to the vector and store it in `d.EvalContext` (the
decoder mutates itself), then decode against a fresh child of it.
Returns (EvalContext after the call, keep, scenario, diagnostics). -/
def decodeScenarioM (body : BodyDecoder) (name : String) (env : MatrixEnv)
    (vec : Option Vector) : MatrixEnv × Bool × Scenario × List HclDiag :=
  match vec with
  | none =>
    let (p, ds) := body env
    (env, !hclHasErrors ds, { name := name, variants := none, payload := p }, ds)
  | some v =>
    let env' : MatrixEnv := some v
    let (p, ds) := body env'
    (env', !hclHasErrors ds, { name := name, variants := some v, payload := p }, ds)

/-- The vector loop of `decodeScenariosSerial`, threading the decoder's
(mutated) context through the iterations. -/
def serialLoop (body : BodyDecoder) (name : String) (env : MatrixEnv) :
    List Vector → MatrixEnv × List Scenario × List HclDiag
  | [] => (env, [], [])
  | v :: vs =>
    let (env', keep, sc, ds) := decodeScenarioM body name env (some v)
    let (env'', scs, dss) := serialLoop body name env' vs
    (env'', (if keep then [sc] else []) ++ scs, ds ++ dss)

/-- Embeds `ScenarioDecoder.decodeScenariosSerial`: without a matrix (or with an
empty one) decode the single scenario with a nil vector; otherwise decode
one scenario per vector in matrix order. -/
def decodeScenariosSerialM (body : BodyDecoder) (name : String) (env : MatrixEnv)
    (matrix : Option (List Vector)) : MatrixEnv × List Scenario × List HclDiag :=
  match matrix with
  | none =>
    let (env', keep, sc, ds) := decodeScenarioM body name env none
    (env', if keep then [sc] else [], ds)
  | some vs =>
    if vs.length < 1 then
      let (env', keep, sc, ds) := decodeScenarioM body name env none
      (env', if keep then [sc] else [], ds)
    else serialLoop body name env vs

/-- One concurrent worker of `decodeScenariosConcurrent` and the collector
appends, in arrival order.  Each list entry is a worker: `own` is the
vector handed to the goroutine (stored in `Scenario.Variants` and written
into `d.EvalContext`), `seen` is the vector whose binding the worker's
second read of `d.EvalContext` observed — the unsynchronized write/read
pair on the shared decoder makes `seen` another worker's vector when the
race interleaves, and `own` itself otherwise. -/
def collectWorkers (body : BodyDecoder) (name : String) :
    List (Vector × Vector) → List Scenario × List HclDiag
  | [] => ([], [])
  | (own, seen) :: rest =>
    let (p, ds) := body (some seen)
    let keep := !hclHasErrors ds
    let (scs, dss) := collectWorkers body name rest
    ((if keep then [{ name := name, variants := some own, payload := p }] else []) ++ scs,
      ds ++ dss)

/-- Embeds `ScenarioDecoder.decodeScenariosConcurrent`: with no matrix (or an
empty one) it falls back to the serial path; otherwise one goroutine per
vector, results collected in arrival order.  `workers` lists the workers
in the collector's arrival order; its `own` components are the matrix
vectors in some order. -/
def decodeScenariosConcurrentM (body : BodyDecoder) (name : String) (env : MatrixEnv)
    (matrix : Option (List Vector)) (workers : List (Vector × Vector)) :
    List Scenario × List HclDiag :=
  match matrix with
  | none => (decodeScenariosSerialM body name env none).2
  | some vs =>
    if vs.length < 1 then (decodeScenariosSerialM body name env (some vs)).2
    else collectWorkers body name workers

/-- The scenarios contributed by decoding one non-nil vector with its own
`matrix` binding (the race-free per-vector outcome): the singleton kept
scenario, or nothing when the body produced error diagnostics. -/
def scenOf (body : BodyDecoder) (name : String) (v : Vector) : List Scenario :=
  if !hclHasErrors (body (some v)).2 then
    [{ name := name, variants := some v, payload := (body (some v)).1 }]
  else []

/-- The diagnostics contributed by decoding one non-nil vector with its
own `matrix` binding. -/
def diagOf (body : BodyDecoder) (v : Vector) : List HclDiag := (body (some v)).2

/-- The decode-path choice made by `DecodeScenarioBlocks` (lines 477-496):
the guard `Matrix == nil || (Matrix != nil || len(Matrix.Vectors) < 1)`
is embedded exactly as written, with Go's short-circuit evaluation. -/
inductive DecodeMode where
  | serial
  | concurrent
  | unknownMode
deriving DecidableEq, Repr

/-- Which decode option `DecodeScenarioBlocks` picks for a block, given the
decode target and the block's matrix. -/
def chooseMode (target : Nat) (matrix : Option (List Vector)) : DecodeMode :=
  match matrix with
  | none => .serial
  | some vs =>
    if (some vs).isSome || vs.length < 1 then .serial
    else if target = DecodeTargetScenariosNamesExpandVariants then
      if vs.length < 8000 then .serial else .concurrent
    else if target = DecodeTargetScenariosComplete ∨ target = DecodeTargetAll then
      if vs.length < 100 then .serial else .concurrent
    else .unknownMode

/-- The per-block record a `DecodeScenarioBlocks` iteration produces:
the block's matrix, its sorted scenarios and its diagnostics. -/
structure BlockResult where
  matrix : Option (List Vector)
  scenarios : List Scenario
  diags : List HclDiag
deriving DecidableEq, Repr

/-- The diagnostic appended in the `default` arm of the decode-mode switch. -/
def unknownModeDiag (target : Nat) : HclDiag :=
  { severity := .error
    summary := "unknown scenario decode mode"
    detail := toString target ++ " is not a known decode mode" }

/-- The scenario-expansion phase of one `DecodeScenarioBlocks` iteration
(lines 473-510): skip below `ScenariosNamesExpandVariants`, otherwise
decode serially or concurrently per `chooseMode` and stably sort the
block's scenarios by `Scenario.String()`.  `workers` supplies the arrival
order for a concurrent decode. -/
def expandPhase (target : Nat) (body : BodyDecoder) (name : String) (env : MatrixEnv)
    (matrix : Option (List Vector)) (workers : List (Vector × Vector))
    (diags : List HclDiag) : BlockResult :=
  if target < DecodeTargetScenariosNamesExpandVariants then
    { matrix := matrix, scenarios := [], diags := diags }
  else
    let (scs, ds) :=
      match chooseMode target matrix with
      | .serial => (decodeScenariosSerialM body name env matrix).2
      | .concurrent => decodeScenariosConcurrentM body name env matrix workers
      | .unknownMode => ([], [unknownModeDiag target])
    { matrix := matrix, scenarios := sortScenarios scs, diags := diags ++ ds }

/-- One full iteration of the `DecodeScenarioBlocks` loop (lines 455-511)
for a block that survived name filtering: decode the matrix when the
target is at least `ScenariosMatrixOnly` (the result of `decodeMatrix` is
the parameter `dm`), filter it through the scenario filter when one is set
and the matrix has more than one vector (`filterM` is `Matrix.Filter`,
whose result may be nil), short-circuit when the filtered matrix is empty,
then run the expansion phase. -/
def processBlock (target : Nat) (hasFilter : Bool) (body : BodyDecoder) (name : String)
    (env : MatrixEnv) (dm : Option (List Vector) × List HclDiag)
    (filterM : List Vector → Option (List Vector))
    (workers : List (Vector × Vector)) : BlockResult :=
  if target ≥ DecodeTargetScenariosMatrixOnly then
    match dm.1 with
    | some mx =>
      if mx.length > 1 ∧ hasFilter then
        match filterM mx with
        | none => { matrix := none, scenarios := [], diags := dm.2 }
        | some fx =>
          if fx.length < 1 then { matrix := some fx, scenarios := [], diags := dm.2 }
          else expandPhase target body name env (some fx) workers dm.2
      else expandPhase target body name env (some mx) workers dm.2
    | none => expandPhase target body name env none workers dm.2
  else expandPhase target body name env none workers []

/-! Embedding of the `decodeScenario` evaluation-context mutation (structural model).

For the frame-effect claim the evaluation context is modelled
structurally, as hcl represents it: a tree node with a variable table and
a parent pointer.  `NewChild` allocates a fresh node whose parent is the
receiver. -/

/-- A structural `hcl.EvalContext`: variable bindings plus an optional
parent.  Variable values are matrix vectors (`vec.CtyVal()`). -/
inductive EvalCtx where
  | root (vars : List (String × Vector))
  | child (vars : List (String × Vector)) (parent : EvalCtx)
deriving DecidableEq, Repr

/-- The decoder's `EvalContext` field after `decodeScenario(vec, block)`
returns (lines 547-566): a nil vector leaves the field alone; a non-nil
vector allocates `matrixCtx := d.EvalContext.NewChild()`, sets its
variables to `{matrix: vec.CtyVal()}`, and assigns it to `d.EvalContext`. -/
def decodeScenarioCtxAfter (ctx : EvalCtx) (vec : Option Vector) : EvalCtx :=
  match vec with
  | none => ctx
  | some v => .child [("matrix", v)] ctx

/-! Sample framer (`internal/flightplan/sample.go`). -/

/-- Embeds `pb.Sample_Filter`, reduced to the fields `filterSubsets` reads: the
subset include list and the subset exclude list, each a list of subset
names.  A nil slice is `none`; proto `GetSubsets`/`GetExcludeSubsets`
return nil on a nil receiver. -/
structure SampleFilter where
  subsets : Option (List String)
  excludeSubsets : Option (List String)
deriving DecidableEq, Repr

/-- The include reduction of `filterSubsets` (lines 152-163): for each
include entry, in include-list order, append the first subset whose name
matches.  Subsets are identified by their names. -/
def includeReduce (subsets : List String) (incl : List String) : List String :=
  incl.foldl (fun acc i => acc ++ (subsets.find? (fun s => s = i)).toList) []

/-- Erase the first occurrence of `name` — the value-level effect of
`append(subsets[:j], subsets[j+1:]...)` on the slice view, `j` being the
index of the first match. -/
def eraseFirst : List String → String → List String
  | [], _ => []
  | x :: xs, n => if x = n then xs else x :: eraseFirst xs n

/-- One exclude removal (lines 166-172) under Go slice semantics: the loop
scans the current view (`backing.take m`) for the first subset with the
exclude's name; when found, `subsets = append(subsets[:j], subsets[j+1:]...)`
shifts the view's elements left by one in the *backing array* and shortens
the view by one, while the entries at and beyond the old view length keep
their values.  State is (backing array contents, view length). -/
def removeFirstInView (backing : List String) (m : Nat) (name : String) :
    List String × Nat :=
  let view := backing.take m
  if view.any (fun s => s = name) then
    (eraseFirst view name ++ backing.drop (m - 1), m - 1)
  else (backing, m)

/-- The exclude loop of `filterSubsets`, folding `removeFirstInView` over
the exclude names. -/
def applyExcludesState (backing : List String) (m : Nat) (excl : List String) :
    List String × Nat :=
  excl.foldl (fun st name => removeFirstInView st.1 st.2 name) (backing, m)

/-- Embeds `Sample.filterSubsets`.  Returns the pair (returned subset slice,
contents of `s.Subsets` observed after the call).  With an include list
present the excludes operate on the fresh `newSubs` backing and the
sample's own list is untouched; with no include list the returned slice
aliases `s.Subsets`, so the in-place exclude removals are visible through
the sample's (fixed-length) slice. -/
def filterSubsets (subsets : List String) (filter : Option SampleFilter) :
    List String × List String :=
  if subsets.length < 1 then ([], subsets)
  else
    match filter with
    | none => (subsets, subsets)
    | some f =>
      match f.subsets with
      | some incl =>
        let reduced := includeReduce subsets incl
        let (b, m) :=
          match f.excludeSubsets with
          | some excl => applyExcludesState reduced reduced.length excl
          | none => (reduced, reduced.length)
        (b.take m, subsets)
      | none =>
        let (b, m) :=
          match f.excludeSubsets with
          | some excl => applyExcludesState subsets subsets.length excl
          | none => (subsets, subsets.length)
        (b.take m, b.take subsets.length)

/-- A computed subset frame.  `SampleSubset.Frame` is not part of the
sources; modelled from the spec: each remaining subset computes its frame
against the workspace, and the frame is tagged with the sample's name. -/
structure SubsetFrameM where
  sampleName : String
  payload : String
deriving DecidableEq, Repr

/-- Map upsert for the `SubsetFrames` map, keyed by subset name. -/
def upsert (m : List (String × SubsetFrameM)) (k : String) (v : SubsetFrameM) :
    List (String × SubsetFrameM) :=
  if m.any (fun kv => kv.1 = k) then
    m.map fun kv => if kv.1 = k then (k, v) else kv
  else m ++ [(k, v)]

/-- The assembled `SampleFrame`. -/
structure SampleFrameM where
  filter : Option SampleFilter
  subsetFrames : List (String × SubsetFrameM)
deriving DecidableEq, Repr

/-- Map-key membership for the `SubsetFrames` map. -/
def hasKey (m : List (String × SubsetFrameM)) (k : String) : Bool :=
  m.any fun kv => kv.1 = k

/-- A rendering of `filter.String()` used in the no-match error message. -/
def sampleFilterStr : Option SampleFilter → String
  | none => "<nil>"
  | some f =>
    String.intercalate " " ((f.subsets.getD []) ++ (f.excludeSubsets.getD []).map ("!" ++ ·))

/-- Embeds `Sample.Frame` (lines 106-143): reduce the subsets through
`filterSubsets`; when none remain return no frame plus `FromErr` of the
no-match error; otherwise build the `SubsetFrames` map keyed by the
surviving subset names.  `subsetFrame` stands for `SampleSubset.Frame`
(not in the sources; modelled total from the spec) and `sampleName` is
`s.Name`, written into each frame. -/
def sampleFrame (sampleName : String) (subsets : List String)
    (filter : Option SampleFilter) (subsetFrame : String → SubsetFrameM) :
    Option SampleFrameM × List PbDiag :=
  let remaining := (filterSubsets subsets filter).1
  if remaining.length < 1 then
    (none, FromErr (some ("no subsets matched the given filter: " ++ sampleFilterStr filter)))
  else
    let frames := remaining.foldl
      (fun acc name => upsert acc name { subsetFrame name with sampleName := sampleName })
      []
    (some { filter := filter, subsetFrames := frames }, [])

/-! Helper lemmas: the byte-wise string order is a total preorder -/

theorem charEq_of_toNat {a b : Char} (h : a.toNat = b.toNat) : a = b := by
  cases a; cases b
  simp only [Char.toNat] at h
  congr 1
  exact UInt32.toNat.inj h

theorem stringEq_of_data {s t : String} (h : s.data = t.data) : s = t := by
  cases s; cases t; congr 1

theorem lexLe_total : ∀ a b : List Char, lexLe a b = true ∨ lexLe b a = true := by
  intro a
  induction a with
  | nil => intro b; left; rfl
  | cons x xs ih =>
    intro b
    cases b with
    | nil => right; rfl
    | cons y ys =>
      simp only [lexLe]
      rcases Nat.lt_trichotomy x.toNat y.toNat with h | h | h
      · left; simp [h]
      · have h1 : ¬ x.toNat < y.toNat := by omega
        have h2 : ¬ y.toNat < x.toNat := by omega
        rcases ih ys with h3 | h3
        · left; simp [h1, h2, h3]
        · right; simp [h1, h2, h3]
      · right; simp [h, Nat.lt_asymm h]

theorem lexLe_trans :
    ∀ a b c : List Char, lexLe a b = true → lexLe b c = true → lexLe a c = true := by
  intro a
  induction a with
  | nil => intro b c _ _; rfl
  | cons x xs ih =>
    intro b c hab hbc
    cases b with
    | nil => simp [lexLe] at hab
    | cons y ys =>
      cases c with
      | nil => simp [lexLe] at hbc
      | cons z zs =>
        simp only [lexLe] at hab hbc ⊢
        by_cases hxy : x.toNat < y.toNat
        · by_cases hyz : y.toNat < z.toNat
          · simp [show x.toNat < z.toNat by omega]
          · simp only [hyz, if_false] at hbc
            by_cases hzy : z.toNat < y.toNat
            · simp [hzy, if_true] at hbc
            · have : y.toNat = z.toNat := by omega
              simp [show x.toNat < z.toNat by omega]
        · simp only [hxy, if_false] at hab
          by_cases hyx : y.toNat < x.toNat
          · simp [hyx] at hab
          · have hxy' : x.toNat = y.toNat := by omega
            simp only [hyx, if_false] at hab
            by_cases hyz : y.toNat < z.toNat
            · simp [show x.toNat < z.toNat by omega]
            · simp only [hyz, if_false] at hbc
              by_cases hzy : z.toNat < y.toNat
              · simp [hzy] at hbc
              · have hyz' : y.toNat = z.toNat := by omega
                have h1 : ¬ x.toNat < z.toNat := by omega
                have h2 : ¬ z.toNat < x.toNat := by omega
                simp only [hzy, if_false] at hbc
                simp [h1, h2, ih ys zs hab hbc]

theorem lexLe_antisymm :
    ∀ a b : List Char, lexLe a b = true → lexLe b a = true → a = b := by
  intro a
  induction a with
  | nil =>
    intro b _ hba
    cases b with
    | nil => rfl
    | cons y ys => simp [lexLe] at hba
  | cons x xs ih =>
    intro b hab hba
    cases b with
    | nil => simp [lexLe] at hab
    | cons y ys =>
      simp only [lexLe] at hab hba
      by_cases hxy : x.toNat < y.toNat
      · simp [show ¬ y.toNat < x.toNat by omega, hxy] at hba
      · simp only [hxy, if_false] at hab
        by_cases hyx : y.toNat < x.toNat
        · simp [hyx] at hab
        · simp only [hyx, if_false] at hab hba
          simp only [hxy, if_false] at hba
          have hxy' : x = y := charEq_of_toNat (by omega)
          subst hxy'
          rw [ih ys hab hba]

theorem strLeB_total (a b : String) : strLeB a b = true ∨ strLeB b a = true :=
  lexLe_total a.data b.data

theorem strLeB_trans {a b c : String} (h1 : strLeB a b = true) (h2 : strLeB b c = true) :
    strLeB a c = true :=
  lexLe_trans a.data b.data c.data h1 h2

theorem strLeB_antisymm {a b : String} (h1 : strLeB a b = true) (h2 : strLeB b a = true) :
    a = b :=
  stringEq_of_data (lexLe_antisymm a.data b.data h1 h2)

instance : IsTotal Scenario scenLE :=
  ⟨fun a b => strLeB_total (scenarioString a) (scenarioString b)⟩

instance : IsTrans Scenario scenLE :=
  ⟨fun _ _ _ h1 h2 => strLeB_trans h1 h2⟩

/-! Claim C9. -/

/-- C9: for a nil error `FromErr` returns no diagnostics; for a non-nil
error it returns exactly one diagnostic with error severity, summary equal
to the error's message, and no source range (and no snippet). -/
theorem c9_fromErr_spec :
    FromErr none = [] ∧
    ∀ msg, FromErr (some msg) =
      [{ severity := .error, summary := msg, detail := "", range := none, snippet := none }] :=
  ⟨rfl, fun _ => rfl⟩

/-! Claim C2. -/

/-- C2: the decode-path choice of `DecodeScenarioBlocks` as written always
selects the serial path — the guard
`Matrix == nil || (Matrix != nil || len(Matrix.Vectors) < 1)` is a
tautology, so the concurrent thresholds (8,000 for
`ScenariosNamesExpandVariants`, 100 for `ScenariosComplete`/`All`) are
dead code.  In particular at `ScenariosComplete` with a 100-vector matrix
the code decodes serially, not concurrently as the claim states. -/
theorem c2_chooseMode_always_serial :
    (∀ (target : Nat) (matrix : Option (List Vector)),
      chooseMode target matrix = DecodeMode.serial) ∧
    chooseMode DecodeTargetScenariosComplete
      (some (List.replicate 100 [("arch", "amd64")])) = DecodeMode.serial := by
  constructor
  · intro t m
    cases m with
    | none => rfl
    | some vs => simp [chooseMode]
  · simp [chooseMode]

/-! Claim C4. -/

/-- C4 counterexample: with a non-nil vector, `decodeScenario` does not
leave the decoder's `EvalContext` field at its previous value — the field
is reassigned to the freshly built child context. -/
theorem c4_counterexample :
    decodeScenarioCtxAfter (.root []) (some [("a", "1")]) ≠ .root [] := by
  decide

/-- C4 (amended): decoding with a nil vector leaves the decoder's
`EvalContext` untouched; decoding with vector `v` builds a fresh child of
the previous context that binds only `matrix` to the vector's value —
leaving the previous context's own bindings intact as the child's parent —
and stores that child in the decoder's `EvalContext` field, which therefore
does not equal its previous value. -/
theorem c4_decodeScenario_ctx (ctx : EvalCtx) (v : Vector) :
    decodeScenarioCtxAfter ctx none = ctx ∧
    decodeScenarioCtxAfter ctx (some v) = .child [("matrix", v)] ctx :=
  ⟨rfl, rfl⟩

/-! Claim C5. -/

theorem walkTraversal_none_of_fail (ev : List String → Option String) (seen : List String) :
    ∀ (n : Nat) (t : List String), t.length ≤ n →
      (∀ k, 2 ≤ k → k ≤ t.length → ev (t.take k) = none) →
      walkTraversal ev seen t = none := by
  intro n
  induction n with
  | zero =>
    intro t hn _
    rw [walkTraversal]
    simp only [if_pos (by omega : t.length ≤ 1)]
  | succ n ih =>
    intro t hn hfail
    rw [walkTraversal]
    by_cases hlen : t.length ≤ 1
    · simp [hlen]
    · simp only [if_neg hlen]
      have hev : ev t = none := by
        have := hfail t.length (by omega) (le_refl _)
        rwa [List.take_length] at this
      rw [hev]
      exact ih t.dropLast (by simp [List.length_dropLast]; omega)
        fun k hk2 hkle => by
          rw [List.dropLast_eq_take, List.take_take]
          have hkle' : k ≤ t.length - 1 := by
            simpa [List.length_dropLast] using hkle
          rw [min_eq_left (by omega : k ≤ t.length - 1)]
          exact hfail k hk2 (by omega)

theorem walkTraversal_some_spec (ev : List String → Option String) (seen : List String) :
    ∀ (n : Nat) (t : List String), t.length ≤ n →
      ∀ p v, walkTraversal ev seen t = some (p, v) →
        2 ≤ p.length ∧ ev p = some v ∧ traversalJoin p ∉ seen ∧ p = t.take p.length ∧
          ∀ k, p.length < k → k ≤ t.length → ev (t.take k) = none := by
  intro n
  induction n with
  | zero =>
    intro t hn p v hw
    rw [walkTraversal] at hw
    simp only [if_pos (by omega : t.length ≤ 1)] at hw
    exact Option.noConfusion hw
  | succ n ih =>
    intro t hn p v hw
    rw [walkTraversal] at hw
    by_cases hlen : t.length ≤ 1
    · simp [hlen] at hw
    · simp only [if_neg hlen] at hw
      cases hev : ev t with
      | none =>
        rw [hev] at hw
        obtain ⟨hp2, hevp, hseen, hptake, hrest⟩ :=
          ih t.dropLast (by simp [List.length_dropLast]; omega) p v hw
        have hplen : p.length ≤ t.dropLast.length := by
          rw [hptake]
          exact (List.length_take _ _).le.trans (by simp)
        have hdl : t.dropLast.length = t.length - 1 := List.length_dropLast t
        refine ⟨hp2, hevp, hseen, ?_, ?_⟩
        · conv_lhs => rw [hptake]
          rw [List.dropLast_eq_take, List.take_take,
            min_eq_left (by omega : p.length ≤ t.length - 1)]
        · intro k hk1 hk2
          by_cases hk3 : k ≤ t.length - 1
          · have := hrest k hk1 (by omega)
            rwa [List.dropLast_eq_take, List.take_take,
              min_eq_left (by omega : k ≤ t.length - 1)] at this
          · have hk4 : k = t.length := by omega
            rwa [hk4, List.take_length]
      | some w =>
        rw [hev] at hw
        by_cases hseen : traversalJoin t ∈ seen
        · simp [hseen] at hw
        · simp only [if_neg hseen] at hw
          have hw' := Option.some.inj hw
          obtain ⟨rfl, rfl⟩ : t = p ∧ w = v :=
            ⟨congrArg Prod.fst hw', congrArg Prod.snd hw'⟩
          exact ⟨by omega, hev, hseen, (List.take_length _).symm, fun k hk1 hk2 => by omega⟩

/-- C5 counterexample: the annotation walk never attempts the length-1
prefix — for a two-step traversal whose full form fails to evaluate and
whose root (length-1 prefix) evaluates cleanly, no annotation is recorded,
contradicting the claim that such a traversal still yields one. -/
theorem c5_counterexample :
    walkTraversal (fun t => if t.length = 1 then some "x" else none) [] ["var", "attr"] =
      none := by
  rw [walkTraversal]
  norm_num
  rw [walkTraversal]
  norm_num

/-- C5 (amended): the annotation walk attempts evaluation at the prefixes
of the traversal from its full depth down to length 2 only.  When it
records an annotation, that annotation is unique and sits at the longest
prefix of length at least 2 that evaluates without error (and whose
rendering was not already seen); every longer prefix evaluates with an
error.  When every prefix of length at least 2 evaluates with an error —
in particular when the only error-free prefix has length 1 — no annotation
is recorded. -/
theorem c5_walkTraversal_spec (ev : List String → Option String) (seen t : List String) :
    (∀ p v, walkTraversal ev seen t = some (p, v) →
      2 ≤ p.length ∧ ev p = some v ∧ traversalJoin p ∉ seen ∧ p = t.take p.length ∧
        ∀ k, p.length < k → k ≤ t.length → ev (t.take k) = none) ∧
    ((∀ k, 2 ≤ k → k ≤ t.length → ev (t.take k) = none) →
      walkTraversal ev seen t = none) :=
  ⟨walkTraversal_some_spec ev seen t.length t (le_refl _),
    walkTraversal_none_of_fail ev seen t.length t (le_refl _)⟩

/-- C5 witness: a concrete three-step traversal where every prefix of
length at least 2 fails to evaluate, so the walk records nothing. -/
theorem c5_witness :
    walkTraversal (fun _ => none) [] ["module", "a", "b"] = none :=
  (c5_walkTraversal_spec (fun _ => none) [] ["module", "a", "b"]).2
    fun _ _ _ => rfl

/-! Claim C6. -/

theorem clampInt_bounds (x codeLen : Int) (h : 0 ≤ codeLen) :
    0 ≤ clampInt x codeLen ∧ clampInt x codeLen ≤ codeLen := by
  unfold clampInt
  split_ifs <;> omega

theorem clampInt_mono {x y : Int} (codeLen : Int) (hlen : 0 ≤ codeLen) (h : x ≤ y) :
    clampInt x codeLen ≤ clampInt y codeLen := by
  unfold clampInt
  split_ifs <;> omega

theorem normalizeRanges_ordered (subject : ByteRange) (endIsZeroPos : Bool)
    (ctx : Option ByteRange) (h : subject.startB ≤ subject.stopB ∨ endIsZeroPos = true) :
    (normalizeRanges subject endIsZeroPos ctx).1.startB ≤
      (normalizeRanges subject endIsZeroPos ctx).1.stopB := by
  unfold normalizeRanges ByteRange.isEmpty
  cases endIsZeroPos with
  | true => simp
  | false =>
    simp only [Bool.false_eq_true, or_false] at h
    simp only [if_neg (by simp : ¬ (false = true))]
    by_cases he : subject.startB = subject.stopB
    · simp [he]
    · simp only [decide_eq_true_eq]
      rw [if_neg he]
      omega

/-- C6 counterexample: a diagnostic whose subject range is reversed
(end byte before start byte) on a one-line file yields clamped offsets
with `HighlightEndOffset < HighlightStartOffset`, refuting the claimed
`HighlightEndOffset ≥ HighlightStartOffset` invariant. -/
theorem c6_counterexample :
    (fromHCLSnippetOffsets ["abcdefghij"] { startB := 5, stopB := 3 } false none).1 = 5 ∧
    (fromHCLSnippetOffsets ["abcdefghij"] { startB := 5, stopB := 3 } false none).2.1 = 3 ∧
    ¬ (fromHCLSnippetOffsets ["abcdefghij"] { startB := 5, stopB := 3 } false none).1 ≤
      (fromHCLSnippetOffsets ["abcdefghij"] { startB := 5, stopB := 3 } false none).2.1 := by
  refine ⟨?_, ?_, ?_⟩ <;> decide

/-- C6 (amended): for every diagnostic produced by `FromHCL` that carries a
snippet, both highlight offsets lie within `[0, len(code)]`; moreover
`HighlightEndOffset ≥ HighlightStartOffset` holds whenever the
diagnostic's subject range is not reversed (its end byte is not before its
start byte, or its end position is unset and defaults to the start). -/
theorem c6_offsets_spec (fileLines : List String) (subject : ByteRange)
    (endIsZeroPos : Bool) (ctx : Option ByteRange) :
    (0 ≤ (fromHCLSnippetOffsets fileLines subject endIsZeroPos ctx).1 ∧
      (fromHCLSnippetOffsets fileLines subject endIsZeroPos ctx).1 ≤
        ((fromHCLSnippetOffsets fileLines subject endIsZeroPos ctx).2.2 : String).length ∧
      0 ≤ (fromHCLSnippetOffsets fileLines subject endIsZeroPos ctx).2.1 ∧
      (fromHCLSnippetOffsets fileLines subject endIsZeroPos ctx).2.1 ≤
        ((fromHCLSnippetOffsets fileLines subject endIsZeroPos ctx).2.2 : String).length) ∧
    (subject.startB ≤ subject.stopB ∨ endIsZeroPos = true →
      (fromHCLSnippetOffsets fileLines subject endIsZeroPos ctx).1 ≤
        (fromHCLSnippetOffsets fileLines subject endIsZeroPos ctx).2.1) := by
  unfold fromHCLSnippetOffsets clampOffsets
  constructor
  · have h1 := clampInt_bounds
      ((normalizeRanges subject endIsZeroPos ctx).1.startB -
        (buildSnippetCode fileLines (normalizeRanges subject endIsZeroPos ctx).2).1)
      ((buildSnippetCode fileLines (normalizeRanges subject endIsZeroPos ctx).2).2.length : Int)
      (by positivity)
    have h2 := clampInt_bounds
      ((normalizeRanges subject endIsZeroPos ctx).1.startB -
        (buildSnippetCode fileLines (normalizeRanges subject endIsZeroPos ctx).2).1 +
        ((normalizeRanges subject endIsZeroPos ctx).1.stopB -
          (normalizeRanges subject endIsZeroPos ctx).1.startB))
      ((buildSnippetCode fileLines (normalizeRanges subject endIsZeroPos ctx).2).2.length : Int)
      (by positivity)
    exact ⟨h1.1, h1.2, h2.1, h2.2⟩
  · intro h
    have hord := normalizeRanges_ordered subject endIsZeroPos ctx h
    exact clampInt_mono _ (by positivity) (by omega)

/-- C6 witness: a concrete in-order subject range on which the amended
theorem applies, giving in-bounds, correctly ordered offsets. -/
theorem c6_witness :
    (fromHCLSnippetOffsets ["ab"] { startB := 0, stopB := 1 } false none).1 ≤
      (fromHCLSnippetOffsets ["ab"] { startB := 0, stopB := 1 } false none).2.1 :=
  (c6_offsets_spec ["ab"] { startB := 0, stopB := 1 } false none).2
    (Or.inl (by decide))

/-! Claim C1. -/

theorem permFlatMap {α β : Type} (f : α → List β) {l₁ l₂ : List α} (h : l₁.Perm l₂) :
    (l₁.flatMap f).Perm (l₂.flatMap f) := by
  induction h with
  | nil => exact List.Perm.refl _
  | cons x _ ih => simpa using ih.append_left (f x)
  | swap x y l =>
    simp only [List.flatMap_cons, ← List.append_assoc]
    exact (List.perm_append_comm.append_right _)
  | trans _ _ ih1 ih2 => exact ih1.trans ih2

theorem permAnyEq {α : Type} (p : α → Bool) {l₁ l₂ : List α} (h : l₁.Perm l₂) :
    l₁.any p = l₂.any p := by
  apply Bool.eq_iff_iff.mpr
  simp only [List.any_eq_true]
  constructor
  · rintro ⟨x, hx, hp⟩; exact ⟨x, h.mem_iff.mp hx, hp⟩
  · rintro ⟨x, hx, hp⟩; exact ⟨x, h.mem_iff.mpr hx, hp⟩

theorem eq_of_perm_sorted_inj :
    ∀ {l₁ l₂ : List Scenario}, l₁.Perm l₂ → l₁.Sorted scenLE → l₂.Sorted scenLE →
      (∀ a ∈ l₁, ∀ b ∈ l₁, scenarioString a = scenarioString b → a = b) → l₁ = l₂ := by
  intro l₁
  induction l₁ with
  | nil =>
    intro l₂ hp _ _ _
    exact hp.nil_eq
  | cons a t₁ ih =>
    intro l₂ hp hs₁ hs₂ hinj
    cases l₂ with
    | nil => exact absurd hp.symm.nil_eq (by simp)
    | cons b t₂ =>
      have hmem_a : a ∈ b :: t₂ := hp.mem_iff.mp (List.mem_cons_self a t₁)
      have hmem_b : b ∈ a :: t₁ := hp.mem_iff.mpr (List.mem_cons_self b t₂)
      obtain ⟨hr₁, hst₁⟩ := List.sorted_cons.mp hs₁
      obtain ⟨hr₂, hst₂⟩ := List.sorted_cons.mp hs₂
      have hab : a = b := by
        rcases List.mem_cons.mp hmem_b with hba | hbt₁
        · exact hba.symm
        · rcases List.mem_cons.mp hmem_a with hab' | hat₂
          · exact hab'
          · have h1 : scenLE a b := hr₁ b hbt₁
            have h2 : scenLE b a := hr₂ a hat₂
            exact hinj a (List.mem_cons_self a t₁) b (List.mem_cons_of_mem a hbt₁)
              (strLeB_antisymm h1 h2)
      subst hab
      have hpt : t₁.Perm t₂ := hp.cons_inv
      rw [ih hpt hst₁ hst₂
        fun x hx y hy hxy =>
          hinj x (List.mem_cons_of_mem a hx) y (List.mem_cons_of_mem a hy) hxy]

theorem sortScenarios_eq_of_perm {l₁ l₂ : List Scenario} (h : l₁.Perm l₂)
    (hinj : ∀ a ∈ l₁, ∀ b ∈ l₁, scenarioString a = scenarioString b → a = b) :
    sortScenarios l₁ = sortScenarios l₂ := by
  have hp : (sortScenarios l₁).Perm (sortScenarios l₂) :=
    ((List.perm_insertionSort scenLE l₁).trans h).trans
      (List.perm_insertionSort scenLE l₂).symm
  exact eq_of_perm_sorted_inj hp (List.sorted_insertionSort scenLE l₁)
    (List.sorted_insertionSort scenLE l₂)
    fun x hx y hy hxy =>
      hinj x ((List.perm_insertionSort scenLE l₁).mem_iff.mp hx)
        y ((List.perm_insertionSort scenLE l₁).mem_iff.mp hy) hxy

theorem serialLoop_spec (body : BodyDecoder) (name : String) :
    ∀ (vs : List Vector) (env : MatrixEnv),
      (serialLoop body name env vs).2.1 = vs.flatMap (scenOf body name) ∧
      (serialLoop body name env vs).2.2 = vs.flatMap (diagOf body) := by
  intro vs
  induction vs with
  | nil => intro env; exact ⟨rfl, rfl⟩
  | cons v rest ih =>
    intro env
    obtain ⟨ih1, ih2⟩ := ih (some v)
    simp only [serialLoop, decodeScenarioM, List.flatMap_cons]
    exact ⟨by rw [← ih1]; rfl, by rw [← ih2]; rfl⟩

theorem collectWorkers_dup (body : BodyDecoder) (name : String) :
    ∀ vs : List Vector,
      collectWorkers body name (vs.map fun v => (v, v)) =
        (vs.flatMap (scenOf body name), vs.flatMap (diagOf body)) := by
  intro vs
  induction vs with
  | nil => rfl
  | cons v rest ih =>
    simp only [List.map_cons, collectWorkers, ih, List.flatMap_cons]
    exact Prod.ext rfl rfl

theorem workers_eq_map_dup (ws : List (Vector × Vector)) (h : ∀ p ∈ ws, p.2 = p.1) :
    ws = (ws.map Prod.fst).map fun v => (v, v) := by
  induction ws with
  | nil => rfl
  | cons p rest ih =>
    have hp := h p (List.mem_cons_self p rest)
    have ht := ih fun q hq => h q (List.mem_cons_of_mem p hq)
    simp only [List.map_cons]
    rw [← ht]
    cases p with
    | mk a b => simp at hp; rw [hp]

/-- C1 counterexample: two distinct vectors whose scenarios render to the
same `Scenario.String()` (the same elements in a different order, so the
key-sorted variant list coincides).  The serial path emits them in matrix
order, the concurrent path in (reversed) arrival order; the stable sort
preserves the tie order, so the sorted scenario lists differ between the
two paths. -/
theorem c1_counterexample :
    sortScenarios
        (decodeScenariosSerialM (fun _ => ("", [])) "s" none
          (some [[("a", "1"), ("b", "2")], [("b", "2"), ("a", "1")]])).2.1 ≠
      sortScenarios
        (decodeScenariosConcurrentM (fun _ => ("", [])) "s" none
          (some [[("a", "1"), ("b", "2")], [("b", "2"), ("a", "1")]])
          [([("b", "2"), ("a", "1")], [("b", "2"), ("a", "1")]),
            ([("a", "1"), ("b", "2")], [("a", "1"), ("b", "2")])]).1 := by
  decide

/-- C1 (amended): provided no concurrent worker observes another worker's
racy write to the shared decoder's `EvalContext` (each worker decodes
under its own vector's `matrix` binding), the serial and concurrent decode
paths produce the same multiset of scenarios, the same multiset of
diagnostics, and the same has-errors outcome; and when distinct decoded
scenarios always have distinct `Scenario.String()` renderings, the
post-sort scenario lists of the two paths are identical. -/
theorem c1_serial_concurrent_equiv (body : BodyDecoder) (name : String) (env : MatrixEnv)
    (matrix : Option (List Vector)) (workers : List (Vector × Vector))
    (harrival : ∀ vs, matrix = some vs → (workers.map Prod.fst).Perm vs)
    (hown : ∀ p ∈ workers, p.2 = p.1) :
    ((decodeScenariosSerialM body name env matrix).2.1).Perm
        (decodeScenariosConcurrentM body name env matrix workers).1 ∧
    ((decodeScenariosSerialM body name env matrix).2.2).Perm
        (decodeScenariosConcurrentM body name env matrix workers).2 ∧
    hclHasErrors (decodeScenariosSerialM body name env matrix).2.2 =
      hclHasErrors (decodeScenariosConcurrentM body name env matrix workers).2 ∧
    ((∀ a ∈ (decodeScenariosSerialM body name env matrix).2.1,
        ∀ b ∈ (decodeScenariosSerialM body name env matrix).2.1,
        scenarioString a = scenarioString b → a = b) →
      sortScenarios (decodeScenariosSerialM body name env matrix).2.1 =
        sortScenarios (decodeScenariosConcurrentM body name env matrix workers).1) := by
  cases matrix with
  | none =>
    refine ⟨List.Perm.refl _, List.Perm.refl _, rfl, fun _ => rfl⟩
  | some vs =>
    by_cases hvs : vs.length < 1
    · have hc : decodeScenariosConcurrentM body name env (some vs) workers =
          (decodeScenariosSerialM body name env (some vs)).2 := by
        simp only [decodeScenariosConcurrentM, if_pos hvs]
      rw [hc]
      exact ⟨List.Perm.refl _, List.Perm.refl _, rfl, fun _ => rfl⟩
    · have hser : (decodeScenariosSerialM body name env (some vs)).2 =
          (serialLoop body name env vs).2 := by
        simp only [decodeScenariosSerialM, if_neg hvs]
      have hcon : decodeScenariosConcurrentM body name env (some vs) workers =
          collectWorkers body name workers := by
        simp only [decodeScenariosConcurrentM, if_neg hvs]
      obtain ⟨hs1, hs2⟩ := serialLoop_spec body name vs env
      have hws : collectWorkers body name workers =
          ((workers.map Prod.fst).flatMap (scenOf body name),
            (workers.map Prod.fst).flatMap (diagOf body)) := by
        conv_lhs => rw [workers_eq_map_dup workers hown]
        exact collectWorkers_dup body name (workers.map Prod.fst)
      have hperm : (workers.map Prod.fst).Perm vs := harrival vs rfl
      have hscen : ((decodeScenariosSerialM body name env (some vs)).2.1).Perm
          (decodeScenariosConcurrentM body name env (some vs) workers).1 := by
        rw [hcon, hws]
        show ((decodeScenariosSerialM body name env (some vs)).2.1).Perm _
        rw [hser, hs1]
        exact (permFlatMap (scenOf body name) hperm).symm
      have hdiag : ((decodeScenariosSerialM body name env (some vs)).2.2).Perm
          (decodeScenariosConcurrentM body name env (some vs) workers).2 := by
        rw [hcon, hws]
        show ((decodeScenariosSerialM body name env (some vs)).2.2).Perm _
        rw [hser, hs2]
        exact (permFlatMap (diagOf body) hperm).symm
      refine ⟨hscen, hdiag, ?_, ?_⟩
      · exact permAnyEq _ hdiag
      · intro hinj
        exact sortScenarios_eq_of_perm hscen hinj

/-- C1 witness: the amended equivalence applied at a concrete single-vector
block with a race-free arrival order. -/
theorem c1_witness :
    sortScenarios
        (decodeScenariosSerialM (fun _ => ("", [])) "s" none (some [[("k", "x")]])).2.1 =
      sortScenarios
        (decodeScenariosConcurrentM (fun _ => ("", [])) "s" none (some [[("k", "x")]])
          [([("k", "x")], [("k", "x")])]).1 :=
  (c1_serial_concurrent_equiv (fun _ => ("", [])) "s" none (some [[("k", "x")]])
    [([("k", "x")], [("k", "x")])]
    (fun vs h => by cases h; decide)
    (by decide)).2.2.2 (by decide)

/-! Claim C3. -/

theorem expandPhase_matrix (target : Nat) (body : BodyDecoder) (name : String)
    (env : MatrixEnv) (matrix : Option (List Vector)) (workers : List (Vector × Vector))
    (diags : List HclDiag) :
    (expandPhase target body name env matrix workers diags).matrix = matrix := by
  unfold expandPhase
  split_ifs <;> rfl

/-- C3: decoding a scenario block at `ScenariosMatrixOnly` or deeper with a
non-nil scenario filter, when the decoded matrix is non-nil with more than
one vector: the block's matrix is replaced by the result of
`Matrix.Filter` with the scenario filter, and when the filtered matrix is
nil or has no vectors the block short-circuits — no scenario is decoded
for it. -/
theorem c3_filter_shortcircuit (target : Nat) (body : BodyDecoder) (name : String)
    (env : MatrixEnv) (mx : List Vector) (ds : List HclDiag)
    (filterM : List Vector → Option (List Vector)) (workers : List (Vector × Vector))
    (htarget : DecodeTargetScenariosMatrixOnly ≤ target) (hlen : 1 < mx.length) :
    (processBlock target true body name env (some mx, ds) filterM workers).matrix =
      filterM mx ∧
    ((filterM mx = none ∨ ∃ fx, filterM mx = some fx ∧ fx.length < 1) →
      (processBlock target true body name env (some mx, ds) filterM workers).scenarios =
        []) := by
  unfold processBlock
  rw [if_pos htarget]
  dsimp only
  rw [if_pos (⟨hlen, rfl⟩ : mx.length > 1 ∧ true = true)]
  cases hf : filterM mx with
  | none => exact ⟨rfl, fun _ => rfl⟩
  | some fx =>
    dsimp only
    by_cases hfx : fx.length < 1
    · rw [if_pos hfx]
      exact ⟨rfl, fun _ => rfl⟩
    · rw [if_neg hfx]
      refine ⟨expandPhase_matrix target body name env (some fx) workers ds, ?_⟩
      rintro (hnone | ⟨fx', hfx', hlen'⟩)
      · exact absurd hnone (by simp)
      · rw [Option.some.inj hfx'] at hfx
        exact absurd hlen' hfx

/-- C3 witness: a two-vector matrix whose filter result is empty — the
block keeps the (empty) filtered matrix and decodes no scenarios. -/
theorem c3_witness :
    (processBlock DecodeTargetScenariosMatrixOnly true (fun _ => ("", [])) "s" none
        (some [[("a", "1")], [("a", "2")]], []) (fun _ => some []) []).matrix = some [] ∧
    (processBlock DecodeTargetScenariosMatrixOnly true (fun _ => ("", [])) "s" none
        (some [[("a", "1")], [("a", "2")]], []) (fun _ => some []) []).scenarios = [] := by
  have h := c3_filter_shortcircuit DecodeTargetScenariosMatrixOnly (fun _ => ("", [])) "s"
    none [[("a", "1")], [("a", "2")]] [] (fun _ => some []) []
    (le_refl _) (by decide)
  exact ⟨h.1, h.2 (Or.inr ⟨[], rfl, by decide⟩)⟩

/-! Claim C7. -/

theorem eraseFirst_of_not_any {l : List String} {n : String}
    (h : l.any (fun s => s = n) = false) : eraseFirst l n = l := by
  induction l with
  | nil => rfl
  | cons x xs ih =>
    simp only [List.any_cons, Bool.or_eq_false_iff] at h
    simp only [eraseFirst, if_neg (by simpa using h.1)]
    rw [ih h.2]

theorem eraseFirst_length_of_any {l : List String} {n : String}
    (h : l.any (fun s => s = n) = true) : (eraseFirst l n).length = l.length - 1 := by
  induction l with
  | nil => simp at h
  | cons x xs ih =>
    by_cases hx : x = n
    · simp [eraseFirst, hx]
    · simp only [List.any_cons, Bool.or_eq_true_iff] at h
      rcases h with h | h
      · exact absurd (by simpa using h) hx
      · have hxs : xs ≠ [] := by
          rintro rfl
          simp at h
        simp only [eraseFirst, if_neg hx, List.length_cons, ih h]
        cases xs with
        | nil => exact absurd rfl hxs
        | cons y ys => simp

theorem removeFirstInView_spec (b : List String) (m : Nat) (n : String) (hm : m ≤ b.length) :
    (removeFirstInView b m n).1.take (removeFirstInView b m n).2 =
      eraseFirst (b.take m) n ∧
    (removeFirstInView b m n).2 ≤ (removeFirstInView b m n).1.length ∧
    (removeFirstInView b m n).1.length = b.length := by
  unfold removeFirstInView
  cases hany : (b.take m).any (fun s => s = n) with
  | false =>
    rw [if_neg (by simp [hany])]
    exact ⟨(eraseFirst_of_not_any hany).symm, hm, rfl⟩
  | true =>
    rw [if_pos hany]
    have hvlen : (b.take m).length = m := by
      rw [List.length_take]
      omega
    have hm1 : 1 ≤ m := by
      by_contra hc
      have : m = 0 := by omega
      subst this
      simp at hany
    have helen : (eraseFirst (b.take m) n).length = m - 1 := by
      rw [eraseFirst_length_of_any hany, hvlen]
    refine ⟨?_, ?_, ?_⟩
    · rw [List.take_append_eq_append_take, helen,
        Nat.sub_self, List.take_zero, List.append_nil, List.take_of_length_le (by omega)]
    · simp only [List.length_append, helen, List.length_drop]
      omega
    · simp only [List.length_append, helen, List.length_drop]
      omega

theorem applyExcludesState_spec :
    ∀ (excl : List String) (b : List String) (m : Nat), m ≤ b.length →
      ((applyExcludesState b m excl).1.take (applyExcludesState b m excl).2 =
        excl.foldl eraseFirst (b.take m)) ∧
      (applyExcludesState b m excl).2 ≤ (applyExcludesState b m excl).1.length ∧
      (applyExcludesState b m excl).1.length = b.length := by
  intro excl
  induction excl with
  | nil =>
    intro b m hm
    exact ⟨rfl, hm, rfl⟩
  | cons n rest ih =>
    intro b m hm
    obtain ⟨h1, h2, h3⟩ := removeFirstInView_spec b m n hm
    have hstep : applyExcludesState b m (n :: rest) =
        applyExcludesState (removeFirstInView b m n).1 (removeFirstInView b m n).2 rest := rfl
    obtain ⟨ih1, ih2, ih3⟩ :=
      ih (removeFirstInView b m n).1 (removeFirstInView b m n).2 h2
    rw [hstep]
    refine ⟨?_, ih2, by rw [ih3, h3]⟩
    rw [ih1, h1]
    rfl

theorem includeReduce_nil (incl : List String) : includeReduce [] incl = [] := by
  unfold includeReduce
  induction incl with
  | nil => rfl
  | cons i rest ih =>
    simp only [List.find?, Option.toList_none, List.append_nil] at ih ⊢
    exact ih

theorem foldl_eraseFirst_nil (excl : List String) : excl.foldl eraseFirst [] = [] := by
  induction excl with
  | nil => rfl
  | cons n rest ih => simpa [eraseFirst] using ih

/-- C7 counterexample: with no include list and exclude `["a"]` on a sample
whose subsets are `["a", "b"]`, the returned slice is `["b"]` but — because
the returned slice aliases `s.Subsets` and the exclude removal shifts the
backing array in place — the sample's own subset list is observed as
`["b", "b"]` afterwards, not `["a", "b"]`: the operation does not leave the
sample's subset list unchanged. -/
theorem c7_counterexample :
    filterSubsets ["a", "b"] (some { subsets := none, excludeSubsets := some ["a"] }) =
      (["b"], ["b", "b"]) ∧ (["b", "b"] : List String) ≠ ["a", "b"] := by
  constructor <;> decide

/-- C7 (amended): `filterSubsets` reduces the sample's subsets to the
first subset matching each include entry *in include-list order* (not in
the sample's subset order), then removes the first subset matching each
exclude entry; with a nil filter or nil include list every subset is
retained before excludes.  With an include list present the excludes
operate on a fresh backing array and the sample's own subset list is left
unchanged; with no include list the exclude removals shift the sample's
aliased backing array, so the observed subset list keeps its length but
may change contents. -/
theorem c7_filterSubsets_spec (s incl excl : List String) (e : Option (List String))
    (f : Option SampleFilter) :
    filterSubsets s none = (s, s) ∧
    (filterSubsets s (some { subsets := some incl, excludeSubsets := some excl })).1 =
      excl.foldl eraseFirst (includeReduce s incl) ∧
    (filterSubsets s (some { subsets := some incl, excludeSubsets := none })).1 =
      includeReduce s incl ∧
    (filterSubsets s (some { subsets := none, excludeSubsets := some excl })).1 =
      excl.foldl eraseFirst s ∧
    (filterSubsets s (some { subsets := none, excludeSubsets := none })).1 = s ∧
    (filterSubsets s (some { subsets := some incl, excludeSubsets := e })).2 = s ∧
    (filterSubsets s f).2.length = s.length := by
  by_cases hs : s.length < 1
  · have hnil : s = [] := by
      cases s with
      | nil => rfl
      | cons a t => simp at hs
    subst hnil
    refine ⟨rfl, ?_, ?_, ?_, rfl, ?_, ?_⟩
    · rw [includeReduce_nil, foldl_eraseFirst_nil]; rfl
    · rw [includeReduce_nil]; rfl
    · rw [foldl_eraseFirst_nil]; rfl
    · rfl
    · cases f with
      | none => rfl
      | some f' => rfl
  · have hguard : ¬ s.length < 1 := hs
    refine ⟨?_, ?_, ?_, ?_, ?_, ?_, ?_⟩
    · simp only [filterSubsets, if_neg hguard]
    · simp only [filterSubsets, if_neg hguard]
      obtain ⟨h1, _, _⟩ := applyExcludesState_spec excl (includeReduce s incl)
        (includeReduce s incl).length (le_refl _)
      rw [h1, List.take_length]
    · simp only [filterSubsets, if_neg hguard, List.take_length]
    · simp only [filterSubsets, if_neg hguard]
      obtain ⟨h1, _, _⟩ := applyExcludesState_spec excl s s.length (le_refl _)
      rw [h1, List.take_length]
    · simp only [filterSubsets, if_neg hguard, List.take_length]
    · cases e with
      | none => simp only [filterSubsets, if_neg hguard]
      | some excl' => simp only [filterSubsets, if_neg hguard]
    · cases f with
      | none => simp only [filterSubsets, if_neg hguard]
      | some f' =>
        cases hfs : f'.subsets with
        | some incl' =>
          simp only [filterSubsets, if_neg hguard, hfs]
        | none =>
          cases hfe : f'.excludeSubsets with
          | none =>
            simp only [filterSubsets, if_neg hguard, hfs, hfe, List.take_length]
          | some excl' =>
            simp only [filterSubsets, if_neg hguard, hfs, hfe]
            obtain ⟨_, _, h3⟩ := applyExcludesState_spec excl' s s.length (le_refl _)
            rw [List.length_take, h3]
            omega

/-! Claim C8. -/

theorem hasKey_upsert (m : List (String × SubsetFrameM)) (k a : String) (v : SubsetFrameM) :
    hasKey (upsert m k v) a = (hasKey m a || decide (k = a)) := by
  unfold upsert hasKey
  cases hm : m.any (fun kv => kv.1 = k) with
  | true =>
    rw [if_pos (rfl : (true : Bool) = true)]
    apply Bool.eq_iff_iff.mpr
    simp only [List.any_map, List.any_eq_true, Function.comp, Bool.or_eq_true_iff,
      decide_eq_true_eq]
    constructor
    · rintro ⟨kv, hkv, hp⟩
      by_cases hk : kv.1 = k
      · rw [if_pos hk] at hp
        right
        exact hp
      · rw [if_neg hk] at hp
        left
        exact ⟨kv, hkv, hp⟩
    · rintro (⟨kv, hkv, hp⟩ | hka)
      · by_cases hk : kv.1 = k
        · refine ⟨kv, hkv, ?_⟩
          rw [if_pos hk]
          rw [hk] at hp
          exact hp
        · refine ⟨kv, hkv, ?_⟩
          rw [if_neg hk]
          exact hp
      · simp only [List.any_eq_true, decide_eq_true_eq] at hm
        obtain ⟨kv, hkv, hk⟩ := hm
        refine ⟨kv, hkv, ?_⟩
        rw [if_pos hk]
        exact hka
  | false =>
    rw [if_neg (by simp [hm])]
    simp [List.any_append]

theorem hasKey_foldl_upsert (g : String → SubsetFrameM) :
    ∀ (names : List String) (acc : List (String × SubsetFrameM)) (a : String),
      hasKey (names.foldl (fun mp name => upsert mp name (g name)) acc) a =
        (hasKey acc a || names.any (fun n => n = a)) := by
  intro names
  induction names with
  | nil => intro acc a; simp
  | cons n rest ih =>
    intro acc a
    simp only [List.foldl_cons, List.any_cons]
    rw [ih, hasKey_upsert, Bool.or_assoc]

/-- C8: when the include/exclude reduction leaves no subsets, `Sample.Frame`
returns no frame together with exactly one error-severity diagnostic;
otherwise it returns a `SampleFrame` whose `SubsetFrames` map is keyed by
exactly the surviving subset names.  (`SampleSubset.Frame` is not in the
sources and is modelled total from the spec.) -/
theorem c8_sampleFrame_spec (sampleName : String) (subsets : List String)
    (filter : Option SampleFilter) (subsetFrame : String → SubsetFrameM) :
    ((filterSubsets subsets filter).1 = [] →
      (sampleFrame sampleName subsets filter subsetFrame).1 = none ∧
      (sampleFrame sampleName subsets filter subsetFrame).2.length = 1 ∧
      ∀ d ∈ (sampleFrame sampleName subsets filter subsetFrame).2,
        d.severity = Severity.error) ∧
    ((filterSubsets subsets filter).1 ≠ [] →
      ∃ fr, (sampleFrame sampleName subsets filter subsetFrame).1 = some fr ∧
        (sampleFrame sampleName subsets filter subsetFrame).2 = [] ∧
        ∀ name, hasKey fr.subsetFrames name = true ↔
          name ∈ (filterSubsets subsets filter).1) := by
  constructor
  · intro hempty
    unfold sampleFrame
    rw [if_pos (by rw [hempty]; decide)]
    exact ⟨rfl, rfl, by intro d hd; simp [FromErr] at hd; rw [hd]⟩
  · intro hne
    unfold sampleFrame
    rw [if_neg (by
      intro hc
      exact hne (List.eq_nil_of_length_eq_zero (by omega)))]
    refine ⟨_, rfl, rfl, ?_⟩
    intro name
    rw [hasKey_foldl_upsert (fun n => { subsetFrame n with sampleName := sampleName })
      (filterSubsets subsets filter).1 [] name]
    simp [hasKey, List.any_eq_true]

/-- C8 witness: a concrete sample with one subset and no filter — a frame
is built, no diagnostics, and the map is keyed by the surviving name. -/
theorem c8_witness :
    ∃ fr,
      (sampleFrame "smp" ["x"] none fun n => { sampleName := "", payload := n }).1 =
        some fr ∧
      (sampleFrame "smp" ["x"] none fun n => { sampleName := "", payload := n }).2 = [] ∧
      ∀ name, hasKey fr.subsetFrames name = true ↔
        name ∈ (filterSubsets ["x"] none).1 :=
  (c8_sampleFrame_spec "smp" ["x"] none fun n => { sampleName := "", payload := n }).2
    (by decide)

/-! Claim C10. -/

theorem fromTFJSON_eq_mapM (l : List TfDiag) : FromTFJSON l = l.mapM fromTFJSONDiag := by
  cases l with
  | nil => rfl
  | cons a as => simp [FromTFJSON]

/-- C10 counterexample: `FromTFJSON` is not total — an input diagnostic
with an absent (nil) range makes the loop dereference a nil pointer
(modelled as `none`), so no translated diagnostic is produced for it. -/
theorem c10_counterexample :
    FromTFJSON
      [{ severity := "error", summary := "boom", detail := "", range := none,
         snippet := none }] = none := rfl

/-- C10 (amended): on inputs whose every element carries a present range, a
present snippet and a present snippet context, `FromTFJSON` succeeds and
returns exactly one translated diagnostic per input element, mapping
severity `"error"` to error, `"warning"` to warning and anything else to
unknown, and preserving summary and detail; for an element with a nil
range, snippet, or snippet context the translation panics instead. -/
theorem c10_fromTFJSON_total_on_present (l : List TfDiag)
    (h : ∀ d ∈ l, d.range.isSome ∧ ∃ s, d.snippet = some s ∧ s.context.isSome) :
    ∃ out, FromTFJSON l = some out ∧ out.length = l.length ∧
      List.Forall₂
        (fun (din : TfDiag) (dout : PbDiag) =>
          dout.severity = tfSeverityToPb din.severity ∧
          dout.summary = din.summary ∧ dout.detail = din.detail)
        l out := by
  rw [fromTFJSON_eq_mapM]
  induction l with
  | nil => exact ⟨[], rfl, rfl, List.Forall₂.nil⟩
  | cons d ds ih =>
    obtain ⟨h1, s, hs, h3⟩ := h d (List.mem_cons_self d ds)
    obtain ⟨r, hr⟩ := Option.isSome_iff_exists.mp h1
    obtain ⟨c, hc⟩ := Option.isSome_iff_exists.mp h3
    obtain ⟨out, hout, hlen, hfa⟩ := ih fun x hx => h x (List.mem_cons_of_mem d hx)
    simp only [List.mapM_cons, fromTFJSONDiag, hr, hs, hc, hout, Option.bind_eq_bind,
      Option.some_bind, Option.pure_def]
    exact ⟨_, rfl, by simp [hlen], List.Forall₂.cons ⟨rfl, rfl, rfl⟩ hfa⟩

/-- C10 witness: a concrete all-fields-present input on which the amended
theorem applies. -/
theorem c10_witness :
    ∃ out,
      FromTFJSON
        [{ severity := "warning", summary := "w", detail := "d",
           range := some
             { filename := "f.hcl"
               startPos := { line := 1, column := 1, byte := 0 }
               endPos := { line := 1, column := 2, byte := 1 } }
           snippet := some
             { context := some "ctx", code := "code", startLine := 1,
               highlightStartOffset := 0, highlightEndOffset := 1, values := [] } }] =
        some out ∧
      out.length = 1 ∧
      List.Forall₂
        (fun (din : TfDiag) (dout : PbDiag) =>
          dout.severity = tfSeverityToPb din.severity ∧
          dout.summary = din.summary ∧ dout.detail = din.detail)
        [{ severity := "warning", summary := "w", detail := "d",
           range := some
             { filename := "f.hcl"
               startPos := { line := 1, column := 1, byte := 0 }
               endPos := { line := 1, column := 2, byte := 1 } }
           snippet := some
             { context := some "ctx", code := "code", startLine := 1,
               highlightStartOffset := 0, highlightEndOffset := 1, values := [] } }]
        out := by
  refine c10_fromTFJSON_total_on_present _ ?_
  intro d hd
  simp only [List.mem_singleton] at hd
  subst hd
  exact ⟨rfl, _, rfl, rfl⟩

end Enos
